import Mathlib

/-!
Verification of the `wanxiao_demo` memory chunk indexing and hybrid retrieval
engine, shallowly embedded from `src/memory.py` (SQLite + sqlite-vec + FTS5
variant) and `src/milvus_mem_search.py` (Milvus Lite variant).

Text is modelled as `List Char` (the sequence of Unicode code points of a
Python `str`).  Floating point embedding values are modelled as rationals;
the byte-level `struct.pack`/`struct.unpack` float32 coding is modelled as the
identity on the stored value list, which is faithful for every property in
this development (none depends on the bit-level float encoding).
Cryptographic digests (`md5`, `sha256`) are modelled by a deterministic
rolling hash rendered in hexadecimal: every property proved here uses only
that the digest is a deterministic function of its input, never a property of
the particular digest algorithm.
-/

/-- Python `str` modelled as its list of characters. -/
abbrev Str := List Char

/-- Coercion helper from Lean string literals to the `Str` model. -/
def s2l (s : String) : Str := s.toList

/-- Characters stripped by Python `str.strip()` (ASCII whitespace; the full
Unicode whitespace set is irrelevant for the markdown inputs in scope). -/
def isSp (c : Char) : Bool :=
  c = ' ' || c = '\t' || c = '\n' || c = '\r' || c = '\x0b' || c = '\x0c'

/-- Left trim, as in Python `str.lstrip()`. -/
def trimL (l : Str) : Str := l.dropWhile isSp

/-- Right trim, as in Python `str.rstrip()`. -/
def trimR (l : Str) : Str := (l.reverse.dropWhile isSp).reverse

/-- Python `str.strip()`. -/
def pyStrip (l : Str) : Str := trimR (trimL l)

/-- Python `text.split("\n")`: always returns at least one element. -/
def splitLines : Str → List Str
  | [] => [[]]
  | c :: rest =>
      if c = '\n' then [] :: splitLines rest
      else
        match splitLines rest with
        | l :: ls => (c :: l) :: ls
        | [] => [[c]]

/-- Python `"\n".join(lines)`. -/
def joinLines : List Str → Str
  | [] => []
  | [l] => l
  | l :: rest => l ++ '\n' :: joinLines rest

/-- Model of `line.strip().startswith("## ")`: the block-header marker test used by
both chunkers. -/
def isHeaderLine (l : Str) : Bool :=
  (s2l ("## ")).isPrefixOf (pyStrip l)

/-- Index of the first line satisfying the block-header marker test
(the `for ... else` scan in both chunkers). -/
def findHeaderIdx : List Str → Option Nat
  | [] => none
  | l :: rest =>
      if isHeaderLine l then some 0
      else (findHeaderIdx rest).map (· + 1)

/-- The header context: everything before the first `"## "` line, stripped.
Empty when the file has no header line at all. -/
def headerCtx (text : Str) : Str :=
  let lines := splitLines text
  match findHeaderIdx lines with
  | some i => pyStrip (joinLines (lines.take i))
  | none => []

/-- Model of `(header_context + "\n\n" + "\n".join(current_chunk_lines)).strip()`:
the content of one assembled chunk, identical in both chunkers. -/
def mkBlock (hc : Str) (cur : List Str) : Str :=
  pyStrip (hc ++ '\n' :: '\n' :: joinLines cur)

/-- One chunk dictionary produced by `MemoryStore._split_text_sliding_window`
(`{"content": ..., "start": ..., "end": ...}`). -/
structure PyChunk where
  content : Str
  start : Nat
  stop : Nat
deriving DecidableEq

/-- The accumulation loop of `_split_text_sliding_window` from the body start
onward: `i` is the 0-based index of the head of the remaining line list,
`total` the total line count, `cur` the running buffer, `curStart` the 1-based
start line of the running buffer. -/
def memLoop (hc : Str) (total : Nat) :
    List Str → Nat → List Str → Nat → List PyChunk
  | [], _, cur, curStart =>
      if cur.isEmpty then []
      else [{ content := mkBlock hc cur, start := curStart, stop := total }]
  | l :: rest, i, cur, curStart =>
      if isHeaderLine l && !cur.isEmpty then
        { content := mkBlock hc cur, start := curStart, stop := i } ::
          memLoop hc total rest (i + 1) [l] (i + 1)
      else
        memLoop hc total rest (i + 1) (cur ++ [l]) curStart

/-- Model of `MemoryStore._split_text_sliding_window` (src/memory.py, lines 144-217):
split on `"## "` headers, prefixing the header context to every chunk; a file
with no header line becomes one whole-file chunk (content not stripped). -/
def splitTextSlidingWindow (text : Str) : List PyChunk :=
  let lines := splitLines text
  let total := lines.length
  if total = 0 then []
  else
    match findHeaderIdx lines with
    | none => [{ content := text, start := 1, stop := total }]
    | some i =>
        let hc := pyStrip (joinLines (lines.take i))
        memLoop hc total (lines.drop i) i [] (i + 1)

example : splitTextSlidingWindow (s2l ("# d\n\n## A\nalpha")) =
    [{ content := s2l ("# d\n\n## A\nalpha"), start := 3, stop := 4 }] := by
  decide

example : splitTextSlidingWindow (s2l ("# d\n## A\na\n## B\nb")) =
    [{ content := s2l ("# d\n\n## A\na"), start := 2, stop := 3 },
     { content := s2l ("# d\n\n## B\nb"), start := 4, stop := 5 }] := by
  decide

/-! ### Digest model

`hashNat` is a deterministic rolling hash standing in for the md5 / sha256
digests of the source; `hexDigits` renders it the way `hexdigest()` renders a
digest.  Only determinism of the digest is ever used below. -/

/-- Deterministic rolling hash over the code points of a string. -/
def hashNat (s : Str) : Nat :=
  s.foldl (fun a c => (a * 131 + c.toNat + 1) % (2 ^ 128)) 7

/-- Hexadecimal rendering of a hash value. -/
def hexDigits (n : Nat) : Str := Nat.toDigits 16 n

/-- Model of `hashlib.md5(text).hexdigest()` (src/memory.py line 100). -/
def md5Hex (s : Str) : Str := hexDigits (hashNat s)

/-- Model of `hashlib.sha256(text).hexdigest()`
(src/milvus_mem_search.py lines 23-24). -/
def sha256Hex (s : Str) : Str := hexDigits (hashNat s)

/-- Python `f"{n}"` for a natural number. -/
def natStr (n : Nat) : Str := Nat.toDigits 10 n

/-! ### Milvus variant: `src/milvus_mem_search.py` -/

/-- Model of `Path.name`: the final path component. -/
def pathName (p : Str) : Str := (p.reverse.takeWhile (· ≠ '/')).reverse

/-- Model of `Path.stem`: the final component without its last dot-suffix (a leading
dot alone is not a suffix, matching `pathlib`). -/
def pathStem (p : Str) : Str :=
  let b := pathName p
  match b.reverse.dropWhile (· ≠ '.') with
  | '.' :: rest => if rest.isEmpty then b else rest.reverse
  | _ => b

/-- The `MemoryChunk` dataclass (src/milvus_mem_search.py lines 14-29). -/
structure MemoryChunk where
  source_path : Str
  date : Str
  start_line : Nat
  end_line : Nat
  content : Str
deriving DecidableEq

/-- Model of `MemoryChunk.chunk_hash`: sha256 hex digest of the content. -/
def MemoryChunk.chunk_hash (c : MemoryChunk) : Str := sha256Hex c.content

/-- Model of `MemoryChunk.chunk_id`: first 64 hex characters of
`sha256(f"{source_path}:{start_line}:{end_line}:{chunk_hash}")`. -/
def MemoryChunk.chunk_id (c : MemoryChunk) : Str :=
  (sha256Hex (c.source_path ++ ':' :: natStr c.start_line ++
      ':' :: natStr c.end_line ++ ':' :: c.chunk_hash)).take 64

/-- The accumulation loop of `MilvusMemSearch._split_daily_markdown`: same
shape as `memLoop`, but blocks that strip to empty are dropped. -/
def milvLoop (sp date hc : Str) (total : Nat) :
    List Str → Nat → List Str → Nat → List MemoryChunk
  | [], _, cur, curStart =>
      if cur.isEmpty then []
      else
        let block := mkBlock hc cur
        if block.isEmpty then []
        else [{ source_path := sp, date := date, start_line := curStart,
                end_line := total, content := block }]
  | l :: rest, i, cur, curStart =>
      if isHeaderLine l && !cur.isEmpty then
        let block := mkBlock hc cur
        let tail := milvLoop sp date hc total rest (i + 1) [l] (i + 1)
        if block.isEmpty then tail
        else
          { source_path := sp, date := date, start_line := curStart,
            end_line := i, content := block } :: tail
      else
        milvLoop sp date hc total rest (i + 1) (cur ++ [l]) curStart

/-- Model of `MilvusMemSearch._split_daily_markdown` (src/milvus_mem_search.py,
lines 119-185).  `filePath` is the posix path string of the file. -/
def splitDailyMarkdown (filePath : Str) (text : Str) : List MemoryChunk :=
  let lines := splitLines text
  let total := lines.length
  if total = 0 then []
  else
    let date := pathStem filePath
    match findHeaderIdx lines with
    | none =>
        let content := pyStrip text
        if content.isEmpty then []
        else [{ source_path := filePath, date := date, start_line := 1,
                end_line := total, content := content }]
    | some i =>
        let hc := pyStrip (joinLines (lines.take i))
        milvLoop filePath date hc total (lines.drop i) i [] (i + 1)

example : splitDailyMarkdown (s2l ("m/2026-02-12.md")) (s2l ("")) = [] := by
  decide

example :
    (splitDailyMarkdown (s2l ("m/2026-02-12.md"))
        (s2l ("# 2026-02-12\n## A\na\n## B\nb"))).map MemoryChunk.content =
      [s2l ("# 2026-02-12\n\n## A\na"), s2l ("# 2026-02-12\n\n## B\nb")] := by
  decide

/-- One row of the Milvus collection `daily_memory_chunks`
(schema in `_ensure_collection`, src/milvus_mem_search.py lines 59-109). -/
structure MRow where
  id : Str
  source_path : Str
  date : Str
  start_line : Nat
  end_line : Nat
  chunk_hash : Str
  content : Str
  vector : List ℚ
deriving DecidableEq

/-- The Milvus Lite database state: the rows of the collection plus whether
the collection exists (`has_collection`).  When the collection does not
exist it holds no rows. -/
structure MilState where
  rows : List MRow
  hasCollection : Bool
deriving DecidableEq

/-- Model of `MilvusMemSearch._delete_by_source_path`: delete with filter
`source_path == "<escaped>"`; the escaping makes the filter an exact string
match on `source_path`, which is what the model applies directly. -/
def deleteBySourcePath (st : MilState) (p : Str) : MilState :=
  { st with rows := st.rows.filter (fun r => ¬ r.source_path = p) }

/-- Model of `MilvusMemSearch.index_file` (src/milvus_mem_search.py lines 204-229):
chunk, delete all rows of the path, then insert one row per chunk; returns
the inserted row count.  `embed` models the SentenceTransformer encoder
(`_embed`), a pure function of the text. -/
def indexFile (embed : Str → List ℚ) (st : MilState)
    (filePath : Str) (content : Str) : Nat × MilState :=
  let chunks := splitDailyMarkdown filePath content
  let st1 := deleteBySourcePath st filePath
  if chunks.isEmpty then (0, st1)
  else
    let rows := chunks.map (fun c =>
      { id := c.chunk_id, source_path := c.source_path, date := c.date,
        start_line := c.start_line, end_line := c.end_line,
        chunk_hash := c.chunk_hash, content := c.content,
        vector := embed c.content : MRow })
    (rows.length, { st1 with rows := st1.rows ++ rows })

/-- The daily-file name pattern `^\d{4}-\d{2}-\d{2}\.md$`. -/
def isDailyName : Str → Bool
  | [a, b, c, d, '-', e, f, '-', g, h, '.', 'm', 'd'] =>
      a.isDigit && b.isDigit && c.isDigit && d.isDigit &&
        e.isDigit && f.isDigit && g.isDigit && h.isDigit
  | _ => false

/-- Lexicographic comparison of path strings by code point, the order used by
`files.sort(key=lambda p: p.name)`. -/
def strLt : Str → Str → Bool
  | [], [] => false
  | [], _ :: _ => true
  | _ :: _, [] => false
  | a :: as_, b :: bs => a < b || (a = b && strLt as_ bs)

/-- Stable insertion into a list sorted by `strLt` on the file name. -/
def insertByName (x : Str × Str) : List (Str × Str) → List (Str × Str)
  | [] => [x]
  | y :: ys => if strLt y.1 x.1 then y :: insertByName x ys else x :: y :: ys

/-- Stable insertion sort by file name. -/
def sortByName : List (Str × Str) → List (Str × Str)
  | [] => []
  | x :: xs => insertByName x (sortByName xs)

/-- Model of `MilvusMemSearch._iter_daily_files`: the daily directory is modelled as a
list of `(file name, file content)` pairs; files matching the daily pattern
are kept and sorted ascending by name. -/
def iterDailyFiles (dir : List (Str × Str)) : List (Str × Str) :=
  sortByName (dir.filter (fun f => isDailyName f.1))

/-- Model of `MilvusMemSearch.index_all`: index every daily file in order, returning
`(files, chunks)` counts and the final state. -/
def indexAll (embed : Str → List ℚ) (dir : List (Str × Str))
    (st : MilState) : Nat × Nat × MilState :=
  (iterDailyFiles dir).foldl
    (fun acc f =>
      let r := indexFile embed acc.2.2 f.1 f.2
      (acc.1 + 1, acc.2.1 + r.1, r.2))
    (0, 0, st)

/-- Model of `_ensure_collection`: create the (empty) collection if absent. -/
def ensureCollection (st : MilState) : MilState :=
  if st.hasCollection then st else { st with hasCollection := true }

/-- Model of `MilvusMemSearch.rebuild` (src/milvus_mem_search.py lines 242-246):
drop the collection if present, recreate it, then `index_all`. -/
def rebuild (embed : Str → List ℚ) (dir : List (Str × Str))
    (st : MilState) : Nat × Nat × MilState :=
  let st1 := if st.hasCollection then
      ({ rows := [], hasCollection := false } : MilState)
    else st
  indexAll embed dir (ensureCollection st1)

/-! ### SQLite variant: `src/memory.py` -/

/-- Model of `EMBEDDING_DIM` (src/memory.py line 26). -/
def EMBEDDING_DIM : Nat := 4096

/-- The zero vector returned by `_get_embedding` when the provider call
fails (src/memory.py line 142). -/
def zeroVec : List ℚ := List.replicate EMBEDDING_DIM 0

/-- The `embedding_cache` table: `hash TEXT PRIMARY KEY, embedding BLOB`.
The blob is modelled as the vector it packs (`struct.pack` / `struct.unpack`
are inverse bijections on well-formed entries, modelled as the identity). -/
abbrev Cache := List (Str × List ℚ)

/-- Primary-key lookup in the cache table. -/
def cacheLookup (cache : Cache) (h : Str) : Option (List ℚ) :=
  (cache.find? (fun e => e.1 = h)).map (·.2)

/-- Model of `INSERT OR REPLACE` into the cache table. -/
def cacheInsert (cache : Cache) (h : Str) (v : List ℚ) : Cache :=
  (h, v) :: cache.filter (fun e => ¬ e.1 = h)

/-- The embedding provider (`client.embeddings.create` + response decoding):
either raises (`.error`) or returns a vector of floats. -/
abbrev Provider := Str → Except Unit (List ℚ)

/-- Model of `MemoryStore._calculate_hash` (src/memory.py lines 99-100). -/
def calculateHash (text : Str) : Str := md5Hex text

/-- Model of `MemoryStore._get_embedding` (src/memory.py lines 102-142).
Returns the vector, the cache after the call, and the number of provider
invocations made (0 or 1).  On a cache hit the stored blob is decoded and
returned with no provider call.  On a miss the provider is called; a raised
error or a dimension mismatch (which raises `ValueError` inside the same
`try`) is caught by the blanket `except`, which returns the zero vector and
writes nothing to the cache. -/
def getEmbedding (cache : Cache) (prov : Provider) (text textHash : Str) :
    List ℚ × Cache × Nat :=
  match cacheLookup cache textHash with
  | some blob => (blob, cache, 0)
  | none =>
      match prov text with
      | .error _ => (zeroVec, cache, 1)
      | .ok vector =>
          if vector.length = EMBEDDING_DIM then
            (vector, cacheInsert cache textHash vector, 1)
          else
            (zeroVec, cache, 1)

/-- One row of the `chunks` table (src/memory.py lines 52-64). -/
structure CRow where
  id : Nat
  file_path : Str
  start_line : Nat
  end_line : Nat
  content : Str
  chunk_hash : Str
deriving DecidableEq

/-- The SQLite database state: `chunks`, `chunks_vec`, `chunks_fts`,
`embedding_cache`, and the next AUTOINCREMENT rowid (monotone, never
reused, as guaranteed by `AUTOINCREMENT`). -/
structure MemState where
  chunks : List CRow
  vec : List (Nat × List ℚ)
  fts : List (Nat × Str)
  cache : Cache
  nextId : Nat
deriving DecidableEq

/-- The per-chunk insertion step of `process_file` (src/memory.py lines
250-279): skip blank chunks, embed, insert into `chunks`, `chunks_fts` and
`chunks_vec` under the same fresh rowid. -/
def processChunk (prov : Provider) (path : Str) (s : MemState)
    (ch : PyChunk) : MemState :=
  if (pyStrip ch.content).isEmpty then s
  else
    let chunkHash := calculateHash ch.content
    let e := getEmbedding s.cache prov ch.content chunkHash
    let rid := s.nextId
    { chunks := s.chunks ++
        [{ id := rid, file_path := path, start_line := ch.start,
           end_line := ch.stop, content := ch.content,
           chunk_hash := chunkHash }],
      fts := s.fts ++ [(rid, ch.content)],
      vec := s.vec ++ [(rid, e.1)],
      cache := e.2.1,
      nextId := rid + 1 }

/-- Model of `MemoryStore.process_file` (src/memory.py lines 219-282): collect the
old rowids of the path; if any, delete them from `chunks_vec` and delete the
path's rows from `chunks` — the FTS table is deliberately left untouched
(the source comments that FTS deletion is skipped and orphan rows are
accepted); then chunk the new content and insert each non-blank chunk. -/
def processFile (prov : Provider) (st : MemState)
    (path : Str) (content : Str) : MemState :=
  let oldIds := (st.chunks.filter (fun r => r.file_path = path)).map (·.id)
  let st1 :=
    if oldIds.isEmpty then st
    else
      { st with
        vec := st.vec.filter (fun p => ¬ p.1 ∈ oldIds),
        chunks := st.chunks.filter (fun r => ¬ r.file_path = path) }
  (splitTextSlidingWindow content).foldl (processChunk prov path) st1

/-! ### Hybrid score fusion (`MemoryStore.search`, src/memory.py 284-361) -/

/-- The `norm` helper (src/memory.py lines 320-323): min-max scaling with
an explicit guard when every observed value coincides.  (Named `minMaxNorm`
here because `norm` collides with Mathlib's norm function.) -/
def minMaxNorm (val minV maxV : ℚ) : ℚ :=
  if maxV = minV then 0 else (val - minV) / (maxV - minV)

/-- Python `min` over a non-empty list (never called on `[]` in the code;
the junk value on `[]` is unused). -/
def pyMin : List ℚ → ℚ
  | [] => 0
  | h :: t => t.foldl min h

/-- Python `max` over a non-empty list. -/
def pyMax : List ℚ → ℚ
  | [] => 0
  | h :: t => t.foldl max h

/-- Model of `vec_res.values() or [0]` — an empty result set contributes the single
observed value `0`. -/
def modVals (res : List (Nat × ℚ)) : List ℚ :=
  if res.isEmpty then [0] else res.map (·.2)

/-- Minimum observed value of one modality. -/
def mMin (res : List (Nat × ℚ)) : ℚ := pyMin (modVals res)

/-- Maximum observed value of one modality. -/
def mMax (res : List (Nat × ℚ)) : ℚ := pyMax (modVals res)

/-- Dictionary lookup in a modality result set (`vec_res.get(rid, ...)`);
a dict comprehension keeps the last binding of a duplicated key. -/
def resGet (res : List (Nat × ℚ)) (rid : Nat) : Option ℚ :=
  (res.reverse.find? (fun p => p.1 = rid)).map (·.2)

/-- The raw value used for a candidate: its own value when present, the
modality's worst observed value when absent. -/
def rawOf (res : List (Nat × ℚ)) (rid : Nat) : ℚ :=
  (resGet res rid).getD (mMax res)

/-- The normalized per-modality score
`1.0 - norm(raw, min, max)` (src/memory.py lines 336-337). -/
def modScore (res : List (Nat × ℚ)) (rid : Nat) : ℚ :=
  1 - minMaxNorm (rawOf res rid) (mMin res) (mMax res)

/-- The fused score `alpha * v_score + (1 - alpha) * f_score`
(src/memory.py line 340). -/
def finalScore (vecRes ftsRes : List (Nat × ℚ)) (alpha : ℚ)
    (rid : Nat) : ℚ :=
  alpha * modScore vecRes rid + (1 - alpha) * modScore ftsRes rid

example : modScore [(1, (1 : ℚ)/2)] 2 = 1 := by
  norm_num [modScore, rawOf, resGet, mMin, mMax, modVals, pyMin, pyMax, minMaxNorm]

example : modScore [(1, 0), (2, 1)] 3 = 0 := by
  norm_num [modScore, rawOf, resGet, mMin, mMax, modVals, pyMin, pyMax, minMaxNorm,
    List.find?]

/-- The candidate id set `set(vec_res) | set(fts_res)`, modelled as the
duplicate-free list of ids in first-occurrence order (Python set iteration
order is unspecified; no property below depends on it). -/
def dedupIds (l : List Nat) : List Nat :=
  l.foldl (fun acc x => if x ∈ acc then acc else acc ++ [x]) []

/-- Stable insertion into a list sorted descending by score. -/
def insertScore (x : Nat × ℚ) : List (Nat × ℚ) → List (Nat × ℚ)
  | [] => [x]
  | y :: ys => if x.2 ≥ y.2 then x :: y :: ys else y :: insertScore x ys

/-- Model of `scores.sort(key=lambda x: x[1], reverse=True)`: stable descending sort
by fused score. -/
def sortScores : List (Nat × ℚ) → List (Nat × ℚ)
  | [] => []
  | x :: xs => insertScore x (sortScores xs)

/-- Model of `round(score, 4)`.  (Python rounds half to even; the difference to
round-half-up matters only at exact `0.00005` ties, which no property below
touches.) -/
def round4 (q : ℚ) : ℚ := ((⌊q * 10000 + 1/2⌋ : ℤ) : ℚ) / 10000

/-- One result dictionary returned by `MemoryStore.search`. -/
structure SearchResult where
  score : ℚ
  source : Str
  content : Str
deriving DecidableEq

/-- Model of `MemoryStore.search` (src/memory.py lines 284-361).  The two index
queries are modelled as oracles: `vecSearch` answers the `chunks_vec` kNN
query for a query vector and candidate count `k = limit * 2`, `ftsSearch`
answers the `chunks_fts MATCH` query with its `LIMIT limit * 2`, and
`getRow` answers the per-id `chunks` lookup of the display step.  The model
captures exactly the source's control flow around them: embed the query via
the cache, return `[]` when the resulting vector is all zeros, fuse, sort
descending, truncate to `limit`, and resolve rows (dropping ids whose
`chunks` row no longer exists). -/
def searchFn (cache : Cache) (prov : Provider)
    (vecSearch : List ℚ → Nat → List (Nat × ℚ))
    (ftsSearch : Str → Nat → List (Nat × ℚ))
    (getRow : Nat → Option CRow)
    (query : Str) (limit : Nat) (alpha : ℚ) : List SearchResult :=
  let queryHash := calculateHash query
  let e := getEmbedding cache prov query queryHash
  let queryVec := e.1
  if queryVec.all (fun v => v == 0) then []
  else
    let vecRes := vecSearch queryVec (limit * 2)
    let ftsRes := ftsSearch query (limit * 2)
    let allIds := dedupIds (vecRes.map (·.1) ++ ftsRes.map (·.1))
    let scores := allIds.map (fun rid =>
      (rid, finalScore vecRes ftsRes alpha rid))
    let ranked := sortScores scores
    (ranked.take limit).filterMap (fun p =>
      (getRow p.1).map (fun row =>
        { score := round4 p.2,
          source := row.file_path ++ s2l (" (L") ++ natStr row.start_line ++
            s2l ("-") ++ natStr row.end_line ++ s2l (")"),
          content := row.content.take 100 ++ s2l ("...") }))

/-! ### Concrete fixtures shared by counterexamples and witnesses -/

/-- A provider whose call always raises. -/
def failingProvider : Provider := fun _ => Except.error ()

/-- A provider that always returns a (well-dimensioned) zero vector. -/
def okProvider : Provider := fun _ => Except.ok (List.replicate EMBEDDING_DIM 0)

/-- A sample `chunks` row. -/
def sampleRow : CRow :=
  { id := 1, file_path := s2l ("m.md"), start_line := 1, end_line := 2,
    content := s2l ("hello"), chunk_hash := calculateHash (s2l ("hello")) }

/-- The empty SQLite store (fresh database; AUTOINCREMENT starts at 1). -/
def emptyMemState : MemState :=
  { chunks := [], vec := [], fts := [], cache := [], nextId := 1 }

/-! ## Claim C2 -/

/-- C2, counterexample.  The claim says a failed provider call propagates an
error and never yields a zero vector; but `_get_embedding` catches the
exception and returns exactly the zero vector (while indeed writing nothing
to the cache). -/
theorem getEmbedding_failure_counterexample :
    (getEmbedding [] failingProvider (s2l ("q"))
        (calculateHash (s2l ("q")))).1 = zeroVec ∧
    (getEmbedding [] failingProvider (s2l ("q"))
        (calculateHash (s2l ("q")))).2.1 = [] := by
  exact ⟨rfl, rfl⟩

/-- C2, amended: on a cache miss, if the provider call raises or returns a
vector of the wrong dimension, `_get_embedding` returns the zero vector of
the configured dimension (instead of propagating an error), and nothing is
written to the embedding cache for that text's hash. -/
theorem getEmbedding_failure_zero_and_no_cache_write
    (cache : Cache) (prov : Provider) (text : Str)
    (hmiss : cacheLookup cache (calculateHash text) = none) :
    (∀ e, prov text = Except.error e →
        getEmbedding cache prov text (calculateHash text) =
          (zeroVec, cache, 1)) ∧
    (∀ v, prov text = Except.ok v → ¬ v.length = EMBEDDING_DIM →
        getEmbedding cache prov text (calculateHash text) =
          (zeroVec, cache, 1)) := by
  constructor
  · intro e he
    simp [getEmbedding, hmiss, he]
  · intro v hv hlen
    simp [getEmbedding, hmiss, hv, hlen]

/-- C2, witness for the amended theorem at a concrete failing provider. -/
theorem getEmbedding_failure_zero_and_no_cache_write_witness :
    getEmbedding [] failingProvider (s2l ("q")) (calculateHash (s2l ("q"))) =
      (zeroVec, [], 1) :=
  (getEmbedding_failure_zero_and_no_cache_write [] failingProvider
    (s2l ("q")) rfl).1 () rfl

/-! ## Claim C8 -/

/-- C8, counterexample.  The claim concludes that embedding the same exact
text twice invokes the provider at most once; with a failing provider the
first call caches nothing, so both calls invoke the provider: call counts
are 1 and 1. -/
theorem getEmbedding_twice_counterexample :
    (getEmbedding [] failingProvider (s2l ("q"))
        (calculateHash (s2l ("q")))).2.2 = 1 ∧
    (getEmbedding
        (getEmbedding [] failingProvider (s2l ("q"))
          (calculateHash (s2l ("q")))).2.1
        failingProvider (s2l ("q")) (calculateHash (s2l ("q")))).2.2 = 1 := by
  exact ⟨rfl, rfl⟩

/-- C8, amended: on a cache hit `_get_embedding` returns the decoded stored
vector with no provider call; and when the first embedding of a text
succeeds (the provider returns a vector of the configured dimension), it is
cached, so embedding the same exact text twice invokes the provider exactly
once in total.  (When the first call fails, nothing is cached and a second
call invokes the provider again.) -/
theorem getEmbedding_cache_hit_avoids_provider
    (cache : Cache) (prov : Provider) (text : Str) :
    (∀ b, cacheLookup cache (calculateHash text) = some b →
        getEmbedding cache prov text (calculateHash text) = (b, cache, 0)) ∧
    (∀ v, cacheLookup cache (calculateHash text) = none →
        prov text = Except.ok v → v.length = EMBEDDING_DIM →
        (getEmbedding cache prov text (calculateHash text)).2.2 +
          (getEmbedding
            (getEmbedding cache prov text (calculateHash text)).2.1
            prov text (calculateHash text)).2.2 = 1) := by
  constructor
  · intro b hb
    simp [getEmbedding, hb]
  · intro v hmiss hok hlen
    have h1 : getEmbedding cache prov text (calculateHash text) =
        (v, cacheInsert cache (calculateHash text) v, 1) := by
      simp [getEmbedding, hmiss, hok, hlen]
    rw [h1]
    have h2 : cacheLookup (cacheInsert cache (calculateHash text) v)
        (calculateHash text) = some v := by
      simp [cacheLookup, cacheInsert, List.find?]
    simp [getEmbedding, h2]

/-- C8, witness: a concrete cache hit returns the stored vector with zero
provider calls, and a concrete successful miss followed by a repeat call
makes exactly one provider call in total. -/
theorem getEmbedding_cache_hit_avoids_provider_witness :
    getEmbedding [(calculateHash (s2l ("q")), [(37 : ℚ)])] failingProvider
        (s2l ("q")) (calculateHash (s2l ("q"))) =
      ([(37 : ℚ)], [(calculateHash (s2l ("q")), [(37 : ℚ)])], 0) ∧
    (getEmbedding [] okProvider (s2l ("q")) (calculateHash (s2l ("q")))).2.2 +
      (getEmbedding
        (getEmbedding [] okProvider (s2l ("q"))
          (calculateHash (s2l ("q")))).2.1
        okProvider (s2l ("q")) (calculateHash (s2l ("q")))).2.2 = 1 := by
  constructor
  · exact (getEmbedding_cache_hit_avoids_provider
      [(calculateHash (s2l ("q")), [(37 : ℚ)])] failingProvider
      (s2l ("q"))).1 [(37 : ℚ)] rfl
  · exact (getEmbedding_cache_hit_avoids_provider [] okProvider
      (s2l ("q"))).2 (List.replicate EMBEDDING_DIM 0) rfl rfl (by simp)

/-! ## Claim C3 -/

/-- C3, counterexample.  The claim says `search` propagates an embedding
failure; but with a failing provider (and both index oracles returning
candidates) `search` returns the empty list as an ordinary successful
result. -/
theorem search_embedding_failure_counterexample :
    searchFn [] failingProvider (fun _ _ => [(1, 0)]) (fun _ _ => [(1, -1)])
      (fun _ => some sampleRow) (s2l ("q")) 5 (7 / 10) = [] := by
  simp [searchFn, getEmbedding, cacheLookup, failingProvider, zeroVec,
    List.all_eq_true, List.mem_replicate]

/-- C3, amended: if embedding the query fails (cache miss and the provider
raises), `search` detects the zero-vector sentinel and returns the empty
list — a successful empty result, not a propagated error. -/
theorem search_embedding_failure_returns_empty
    (cache : Cache) (prov : Provider)
    (vecSearch : List ℚ → Nat → List (Nat × ℚ))
    (ftsSearch : Str → Nat → List (Nat × ℚ))
    (getRow : Nat → Option CRow)
    (query : Str) (limit : Nat) (alpha : ℚ)
    (hmiss : cacheLookup cache (calculateHash query) = none)
    (hfail : prov query = Except.error ()) :
    searchFn cache prov vecSearch ftsSearch getRow query limit alpha = [] := by
  simp [searchFn, getEmbedding, hmiss, hfail, zeroVec, List.all_eq_true,
    List.mem_replicate]

/-- C3, witness for the amended theorem at a concrete failing provider. -/
theorem search_embedding_failure_returns_empty_witness :
    searchFn [] failingProvider (fun _ _ => [(1, 0)]) (fun _ _ => [(2, -1)])
      (fun _ => some sampleRow) (s2l ("hello")) 3 (1 / 2) = [] :=
  search_embedding_failure_returns_empty [] failingProvider _ _ _
    (s2l ("hello")) 3 (1 / 2) rfl rfl

/-! ## Claim C5 -/

/-- C5, counterexample.  The claim says an empty modality contributes a
uniform normalized score of 0; the code's `or [0]` fallback makes every
candidate's raw value equal to the fallback maximum, so the guard in `norm`
fires and every candidate receives score `1 - 0 = 1`, not 0. -/
theorem empty_modality_counterexample :
    modScore ([] : List (Nat × ℚ)) 1 = 1 ∧ ¬ (1 : ℚ) = 0 := by
  refine ⟨?_, by norm_num⟩
  simp [modScore, rawOf, resGet, mMin, mMax, modVals, pyMin, pyMax, minMaxNorm]

/-- C5, amended: when a modality returns zero candidates, the normalization
is still well defined (the `max == min` guard avoids the division), and the
empty modality contributes a uniform normalized score of 1 to every
candidate, so it shifts every fused score by the same constant. -/
theorem empty_modality_uniform_score
    (ftsRes : List (Nat × ℚ)) (alpha : ℚ) (rid : Nat) :
    modScore ([] : List (Nat × ℚ)) rid = 1 ∧
    finalScore [] ftsRes alpha rid = alpha + (1 - alpha) * modScore ftsRes rid := by
  have h : modScore ([] : List (Nat × ℚ)) rid = 1 := by
    simp [modScore, rawOf, resGet, mMin, mMax, modVals, pyMin, pyMax, minMaxNorm]
  refine ⟨h, ?_⟩
  rw [finalScore, h, mul_one]

/-! ## Claim C10 -/

/-- C10: when a file chunks to zero non-empty chunks, `index_file` still
deletes every row of that `source_path` before returning and reports a chunk
count of 0. -/
theorem indexFile_empty_chunkset_purges_path
    (embed : Str → List ℚ) (st : MilState) (filePath content : Str)
    (hempty : splitDailyMarkdown filePath content = []) :
    (indexFile embed st filePath content).1 = 0 ∧
    ∀ r ∈ (indexFile embed st filePath content).2.rows,
      ¬ r.source_path = filePath := by
  constructor
  · simp [indexFile, hempty]
  · intro r hr
    simp only [indexFile, hempty, List.isEmpty_nil, if_true] at hr
    simp only [deleteBySourcePath, List.mem_filter] at hr
    exact of_decide_eq_true hr.2

/-- A pre-existing Milvus row for `daily/2026-01-01.md`, used to witness
that reindexing an emptied file purges it. -/
def staleMilRow : MRow :=
  { id := s2l ("someid"), source_path := s2l ("daily/2026-01-01.md"),
    date := s2l ("2026-01-01"), start_line := 1, end_line := 3,
    chunk_hash := s2l ("h"), content := s2l ("# old"), vector := [] }

/-- C10, witness: indexing the now-empty file returns 0 and removes the
previously indexed row of the same path. -/
theorem indexFile_empty_chunkset_purges_path_witness :
    (indexFile (fun _ => []) { rows := [staleMilRow], hasCollection := true }
        (s2l ("daily/2026-01-01.md")) (s2l (""))).1 = 0 ∧
    staleMilRow ∉ (indexFile (fun _ => [])
        { rows := [staleMilRow], hasCollection := true }
        (s2l ("daily/2026-01-01.md")) (s2l (""))).2.rows := by
  have h := indexFile_empty_chunkset_purges_path (fun _ => [])
    { rows := [staleMilRow], hasCollection := true }
    (s2l ("daily/2026-01-01.md")) (s2l ("")) (by decide)
  exact ⟨h.1, fun hm => h.2 staleMilRow hm rfl⟩

/-! ## Claim C7 -/

/-- Lemma: `index_file` never touches collection existence. -/
theorem indexFile_hasCollection (embed : Str → List ℚ) (st : MilState)
    (p c : Str) : ((indexFile embed st p c).2).hasCollection =
      st.hasCollection := by
  simp only [indexFile, deleteBySourcePath]
  split <;> rfl

/-- Lemma: `index_all` never touches collection existence. -/
theorem indexAll_hasCollection (embed : Str → List ℚ)
    (dir : List (Str × Str)) (st : MilState) :
    ((indexAll embed dir st).2.2).hasCollection = st.hasCollection := by
  suffices h : ∀ (fs : List (Str × Str)) (acc : Nat × Nat × MilState),
      ((fs.foldl (fun acc f =>
        let r := indexFile embed acc.2.2 f.1 f.2
        (acc.1 + 1, acc.2.1 + r.1, r.2)) acc).2.2).hasCollection =
        acc.2.2.hasCollection by
    exact h (iterDailyFiles dir) (0, 0, st)
  intro fs
  induction fs with
  | nil => intro acc; rfl
  | cons f fs ih =>
      intro acc
      rw [List.foldl_cons, ih]
      exact indexFile_hasCollection embed acc.2.2 f.1 f.2

/-- Lemma: `rebuild` is independent of the state it starts from: drop-then-recreate
always reindexes from the empty collection. -/
theorem rebuild_state_indep (embed : Str → List ℚ) (dir : List (Str × Str))
    (st : MilState) (hwf : st.hasCollection = false → st.rows = []) :
    rebuild embed dir st =
      indexAll embed dir { rows := [], hasCollection := true } := by
  obtain ⟨rows, hasC⟩ := st
  cases hasC with
  | true => rfl
  | false =>
      have hr : rows = [] := hwf rfl
      subst hr
      rfl

/-- C7: for a fixed set of source files, running `rebuild()` twice in a row
produces identical results — the same `(files, chunks)` counts and the very
same collection rows (hence the same `chunk_id`s and contents), because
`chunk_id` is a deterministic function of
`(source_path, start_line, end_line, content_hash)` and the daily files are
processed in ascending filename order from a freshly recreated empty
collection. -/
theorem rebuild_idempotent (embed : Str → List ℚ) (dir : List (Str × Str))
    (st : MilState) (hwf : st.hasCollection = false → st.rows = []) :
    rebuild embed dir (rebuild embed dir st).2.2 = rebuild embed dir st := by
  rw [rebuild_state_indep embed dir st hwf]
  have hcol : ((indexAll embed dir
      { rows := [], hasCollection := true }).2.2).hasCollection = true :=
    indexAll_hasCollection embed dir _
  rw [rebuild_state_indep embed dir _ (fun h => absurd (hcol.symm.trans h)
    (by simp))]

/-- C7, witness: a concrete two-file corpus rebuilt twice from a fresh
store gives identical states. -/
theorem rebuild_idempotent_witness :
    rebuild (fun _ => [])
        [(s2l ("2026-01-02.md"), s2l ("# d2\n## B\nb")),
         (s2l ("2026-01-01.md"), s2l ("# d1\n## A\na"))]
        (rebuild (fun _ => [])
          [(s2l ("2026-01-02.md"), s2l ("# d2\n## B\nb")),
           (s2l ("2026-01-01.md"), s2l ("# d1\n## A\na"))]
          { rows := [], hasCollection := true }).2.2 =
      rebuild (fun _ => [])
        [(s2l ("2026-01-02.md"), s2l ("# d2\n## B\nb")),
         (s2l ("2026-01-01.md"), s2l ("# d1\n## A\na"))]
        { rows := [], hasCollection := true } :=
  rebuild_idempotent (fun _ => []) _ _ (fun h => by simp at h)

/-! ## Min/max facts for the fusion normalization -/

theorem foldl_min_le_init : ∀ (t : List ℚ) (a : ℚ), t.foldl min a ≤ a := by
  intro t
  induction t with
  | nil => intro a; exact le_refl a
  | cons h t ih => intro a; exact le_trans (ih (min a h)) (min_le_left a h)

theorem foldl_min_le_mem :
    ∀ (t : List ℚ) (x a : ℚ), x ∈ t → t.foldl min a ≤ x := by
  intro t
  induction t with
  | nil => intro x a hx; cases hx
  | cons h t ih =>
      intro x a hx
      rcases List.mem_cons.1 hx with rfl | hx'
      · exact le_trans (foldl_min_le_init t (min a x)) (min_le_right a x)
      · exact ih x (min a h) hx'

theorem foldl_min_mem_or :
    ∀ (t : List ℚ) (a : ℚ), t.foldl min a = a ∨ t.foldl min a ∈ t := by
  intro t
  induction t with
  | nil => intro a; exact Or.inl rfl
  | cons h t ih =>
      intro a
      rw [List.foldl_cons]
      rcases ih (min a h) with heq | hmem
      · rw [heq]
        rcases min_choice a h with h1 | h1
        · exact Or.inl h1
        · rw [h1]; exact Or.inr (List.mem_cons_self h t)
      · exact Or.inr (List.mem_cons_of_mem h hmem)

theorem init_le_foldl_max : ∀ (t : List ℚ) (a : ℚ), a ≤ t.foldl max a := by
  intro t
  induction t with
  | nil => intro a; exact le_refl a
  | cons h t ih => intro a; exact le_trans (le_max_left a h) (ih (max a h))

theorem mem_le_foldl_max :
    ∀ (t : List ℚ) (x a : ℚ), x ∈ t → x ≤ t.foldl max a := by
  intro t
  induction t with
  | nil => intro x a hx; cases hx
  | cons h t ih =>
      intro x a hx
      rcases List.mem_cons.1 hx with rfl | hx'
      · exact le_trans (le_max_right a x) (init_le_foldl_max t (max a x))
      · exact ih x (max a h) hx'

theorem pyMin_le (l : List ℚ) (x : ℚ) (hx : x ∈ l) : pyMin l ≤ x := by
  cases l with
  | nil => cases hx
  | cons h t =>
      show t.foldl min h ≤ x
      rcases List.mem_cons.1 hx with rfl | hx'
      · exact foldl_min_le_init t x
      · exact foldl_min_le_mem t x h hx'

theorem le_pyMax (l : List ℚ) (x : ℚ) (hx : x ∈ l) : x ≤ pyMax l := by
  cases l with
  | nil => cases hx
  | cons h t =>
      show x ≤ t.foldl max h
      rcases List.mem_cons.1 hx with rfl | hx'
      · exact init_le_foldl_max t x
      · exact mem_le_foldl_max t x h hx'

theorem pyMin_mem (l : List ℚ) (hl : ¬ l = []) : pyMin l ∈ l := by
  cases l with
  | nil => exact absurd rfl hl
  | cons h t =>
      show t.foldl min h ∈ h :: t
      rcases foldl_min_mem_or t h with heq | hmem
      · rw [heq]; exact List.mem_cons_self h t
      · exact List.mem_cons_of_mem h hmem

theorem eq_of_pyMin_eq_pyMax (l : List ℚ) (h : pyMin l = pyMax l)
    (x : ℚ) (hx : x ∈ l) : x = pyMin l :=
  le_antisymm (h ▸ le_pyMax l x hx) (pyMin_le l x hx)

/-! ## Lookup facts for the fusion result sets -/

theorem resGet_eq_some_imp (res : List (Nat × ℚ)) (rid : Nat) (v : ℚ)
    (h : resGet res rid = some v) :
    ∃ p, p ∈ res ∧ p.1 = rid ∧ p.2 = v := by
  unfold resGet at h
  cases hf : res.reverse.find? (fun p => p.1 = rid) with
  | none => rw [hf] at h; cases h
  | some p =>
      rw [hf] at h
      have hv : p.2 = v := by simpa using h
      have hmem : p ∈ res := List.mem_reverse.1 (List.mem_of_find?_eq_some hf)
      have hkeyb := List.find?_some hf
      simp only [decide_eq_true_eq] at hkeyb
      exact ⟨p, hmem, hkeyb, hv⟩

/-- In a result set with duplicate-free ids, looking up the id of a member
pair returns that pair's value. -/
theorem find?_key_of_nodup :
    ∀ (l : List (Nat × ℚ)) (p : Nat × ℚ), (l.map Prod.fst).Nodup → p ∈ l →
      l.find? (fun q => q.1 = p.1) = some p := by
  intro l
  induction l with
  | nil => intro p _ hp; cases hp
  | cons q t ih =>
      intro p hnd hp
      rcases List.mem_cons.1 hp with rfl | hpt
      · exact List.find?_cons_of_pos t (by simp)
      · have hq : ¬ q.1 = p.1 := by
          intro hk
          rw [List.map_cons] at hnd
          exact (List.nodup_cons.1 hnd).1
            (hk ▸ List.mem_map_of_mem Prod.fst hpt)
        rw [List.find?_cons_of_neg t (by simpa using hq)]
        refine ih p ?_ hpt
        rw [List.map_cons] at hnd
        exact (List.nodup_cons.1 hnd).2

theorem resGet_eq_of_nodup (res : List (Nat × ℚ)) (p : Nat × ℚ)
    (hnodup : (res.map Prod.fst).Nodup) (hp : p ∈ res) :
    resGet res p.1 = some p.2 := by
  unfold resGet
  rw [find?_key_of_nodup res.reverse p
    (by rw [List.map_reverse]; exact List.nodup_reverse.2 hnodup)
    (List.mem_reverse.2 hp)]
  rfl

theorem modVals_of_ne_nil (res : List (Nat × ℚ)) (h : ¬ res = []) :
    modVals res = res.map (fun p => p.2) := by
  simp [modVals, List.isEmpty_iff, h]

theorem resGet_val_mem (res : List (Nat × ℚ)) (rid : Nat) (v : ℚ)
    (h : resGet res rid = some v) : v ∈ modVals res := by
  obtain ⟨p, hp, _, hpv⟩ := resGet_eq_some_imp res rid v h
  have hne : ¬ res = [] := by rintro rfl; cases hp
  rw [modVals_of_ne_nil res hne]
  exact hpv ▸ List.mem_map_of_mem (fun p => p.2) hp

theorem modScore_present (res : List (Nat × ℚ)) (rid : Nat) (v : ℚ)
    (h : resGet res rid = some v) :
    modScore res rid = 1 - minMaxNorm v (mMin res) (mMax res) := by
  unfold modScore rawOf
  rw [h]
  rfl

/-- Monotonicity of the per-modality normalized score: among candidates
present in a modality's result set, a strictly higher score is exactly a
strictly lower raw value. -/
theorem modScore_gt_iff (res : List (Nat × ℚ)) (a b : Nat) (va vb : ℚ)
    (ha : resGet res a = some va) (hb : resGet res b = some vb) :
    (modScore res b < modScore res a ↔ va < vb) := by
  have hva : va ∈ modVals res := resGet_val_mem res a va ha
  have hvb : vb ∈ modVals res := resGet_val_mem res b vb hb
  rw [modScore_present res a va ha, modScore_present res b vb hb]
  by_cases hmm : mMax res = mMin res
  · have h1 : va = pyMin (modVals res) :=
      eq_of_pyMin_eq_pyMax _ hmm.symm va hva
    have h2 : vb = pyMin (modVals res) :=
      eq_of_pyMin_eq_pyMax _ hmm.symm vb hvb
    have hab : va = vb := h1.trans h2.symm
    simp [minMaxNorm, hmm, hab, lt_irrefl]
  · have hle : mMin res ≤ mMax res :=
      le_trans (pyMin_le _ va hva) (le_pyMax _ va hva)
    have hlt : mMin res < mMax res :=
      lt_of_le_of_ne hle (fun h => hmm h.symm)
    have hpos : (0 : ℚ) < mMax res - mMin res := sub_pos.2 hlt
    simp only [minMaxNorm, if_neg hmm]
    rw [sub_lt_sub_iff_left, div_lt_div_iff_of_pos_right hpos,
      sub_lt_sub_iff_right]

/-! ## Claim C6 -/

/-- C6: with `alpha = 1.0` the fused ranking coincides with ranking by raw
vector distance ascending, and with `alpha = 0.0` it coincides with ranking
by raw lexical rank ascending: for any two candidates present in the
respective modality's result set, one is ranked strictly above the other
(strictly larger fused score) exactly when its raw value is strictly
smaller. -/
theorem alpha_extreme_rankings (vecRes ftsRes : List (Nat × ℚ))
    (a b : Nat) (va vb fa fb : ℚ) :
    (resGet vecRes a = some va → resGet vecRes b = some vb →
      (finalScore vecRes ftsRes 1 b < finalScore vecRes ftsRes 1 a ↔
        va < vb)) ∧
    (resGet ftsRes a = some fa → resGet ftsRes b = some fb →
      (finalScore vecRes ftsRes 0 b < finalScore vecRes ftsRes 0 a ↔
        fa < fb)) := by
  have h1 : ∀ rid, finalScore vecRes ftsRes 1 rid = modScore vecRes rid := by
    intro rid
    unfold finalScore
    ring
  have h0 : ∀ rid, finalScore vecRes ftsRes 0 rid = modScore ftsRes rid := by
    intro rid
    unfold finalScore
    ring
  constructor
  · intro ha hb
    rw [h1 a, h1 b]
    exact modScore_gt_iff vecRes a b va vb ha hb
  · intro ha hb
    rw [h0 a, h0 b]
    exact modScore_gt_iff ftsRes a b fa fb ha hb

/-- C6, witness: concrete two-candidate result sets where the vector-closer
(resp. lexically better ranked) candidate wins under `alpha = 1`
(resp. `alpha = 0`). -/
theorem alpha_extreme_rankings_witness :
    (finalScore [(1, (0 : ℚ)), (2, 1)] [] 1 2 <
      finalScore [(1, (0 : ℚ)), (2, 1)] [] 1 1) ∧
    (finalScore [] [(1, (-2 : ℚ)), (2, -1)] 0 2 <
      finalScore [] [(1, (-2 : ℚ)), (2, -1)] 0 1) := by
  constructor
  · exact ((alpha_extreme_rankings [(1, (0 : ℚ)), (2, 1)] [] 1 2 0 1 0 0).1
      rfl rfl).2 (by norm_num)
  · exact ((alpha_extreme_rankings [] [(1, (-2 : ℚ)), (2, -1)] 1 2 0 0
      (-2) (-1)).2 rfl rfl).2 (by norm_num)

/-! ## Claim C4 -/

/-- C4, counterexample.  The claim says a candidate present only in the
lexical result set gets vector score 0, never a tie for best; when the
vector result set has a single observed distance, the `max == min` guard
makes the absent candidate's score `1 - 0 = 1`, tied for best with the
present candidate. -/
theorem absence_penalty_counterexample :
    modScore [(1, (1 : ℚ) / 2)] 2 = 1 ∧
    modScore [(1, (1 : ℚ) / 2)] 1 = 1 ∧ ¬ (1 : ℚ) = 0 := by
  refine ⟨?_, ?_, by norm_num⟩ <;>
    norm_num [modScore, rawOf, resGet, mMin, mMax, modVals, pyMin, pyMax,
      minMaxNorm, List.find?]

/-- C4, amended: a candidate absent from a modality's result set is assigned
that modality's worst observed raw value; whenever the modality's observed
minimum and maximum differ this yields a normalized score of 0 while some
present candidate scores 1, so the absent candidate is never tied for best.
(In the degenerate case where all observed values coincide, every candidate
— present or absent — scores 1.)  This holds for the vector and the lexical
modality alike, which share this normalization. -/
theorem absence_penalty_worst_score (res : List (Nat × ℚ)) (rid : Nat)
    (hnodup : (res.map Prod.fst).Nodup)
    (habsent : resGet res rid = none)
    (hspread : ¬ mMin res = mMax res) :
    modScore res rid = 0 ∧ ∃ p ∈ res, modScore res p.1 = 1 := by
  have hmm : ¬ mMax res = mMin res := fun h => hspread h.symm
  constructor
  · unfold modScore rawOf
    rw [habsent]
    simp only [Option.getD_none, minMaxNorm, if_neg hmm]
    rw [div_self (sub_ne_zero.2 hmm)]
    ring
  · have hvals : ¬ modVals res = [] := by
      intro h
      rw [mMin, mMax, h] at hspread
      exact hspread rfl
    have hne : ¬ res = [] := by
      rintro rfl
      rw [mMin, mMax] at hspread
      exact hspread rfl
    have hmin_mem : pyMin (modVals res) ∈ modVals res := pyMin_mem _ hvals
    rw [modVals_of_ne_nil res hne] at hmin_mem
    obtain ⟨p, hp, hpv⟩ := List.mem_map.1 hmin_mem
    refine ⟨p, hp, ?_⟩
    have hget : resGet res p.1 = some p.2 := resGet_eq_of_nodup res p hnodup hp
    rw [modScore_present res p.1 p.2 hget]
    have hpmin : p.2 = mMin res := by
      rw [mMin, modVals_of_ne_nil res hne]
      exact hpv
    rw [hpmin]
    simp only [minMaxNorm, if_neg hmm]
    rw [sub_self, zero_div]
    ring

/-- C4, witness: with observed vector distances 0 and 1, the absent
candidate 3 scores 0 (while candidate 1 scores 1). -/
theorem absence_penalty_worst_score_witness :
    modScore [(1, (0 : ℚ)), (2, 1)] 3 = 0 :=
  (absence_penalty_worst_score [(1, (0 : ℚ)), (2, 1)] 3 (by decide) rfl
    (by norm_num [mMin, mMax, modVals, pyMin, pyMax])).1

/-! ## Reindex invariants for `process_file` (claim C1) -/

/-- The contents of the non-blank chunks of a file's content: exactly the
rows `process_file` inserts for it. -/
def nonemptyChunkContents (content : Str) : List Str :=
  ((splitTextSlidingWindow content).filter
    (fun ch => !(pyStrip ch.content).isEmpty)).map (fun ch => ch.content)

/-- Well-formedness of the SQLite state: AUTOINCREMENT gives every stored
rowid a value below the next id to be handed out. -/
def MemWF (st : MemState) : Prop :=
  (∀ r ∈ st.chunks, r.id < st.nextId) ∧ (∀ p ∈ st.vec, p.1 < st.nextId)

theorem foldl_processChunk_chunks (prov : Provider) (path : Str) :
    ∀ (cs : List PyChunk) (s : MemState),
      ((cs.foldl (processChunk prov path) s).chunks.filter
        (fun r => r.file_path = path)).map (fun r => r.content) =
      ((s.chunks.filter (fun r => r.file_path = path)).map
        (fun r => r.content)) ++
      ((cs.filter (fun ch => !(pyStrip ch.content).isEmpty)).map
        (fun ch => ch.content)) := by
  intro cs
  induction cs with
  | nil => intro s; simp
  | cons ch cs ih =>
      intro s
      rw [List.foldl_cons, ih]
      cases hb : (pyStrip ch.content).isEmpty with
      | true => simp [processChunk, hb]
      | false => simp [processChunk, hb]

theorem foldl_processChunk_fts (prov : Provider) (path : Str) :
    ∀ (cs : List PyChunk) (s : MemState),
      ∃ t, (cs.foldl (processChunk prov path) s).fts = s.fts ++ t := by
  intro cs
  induction cs with
  | nil => intro s; exact ⟨[], by simp⟩
  | cons ch cs ih =>
      intro s
      rw [List.foldl_cons]
      obtain ⟨t, ht⟩ := ih (processChunk prov path s ch)
      cases hb : (pyStrip ch.content).isEmpty with
      | true =>
          refine ⟨t, ?_⟩
          rw [ht]
          simp [processChunk, hb]
      | false =>
          refine ⟨(s.nextId, ch.content) :: t, ?_⟩
          rw [ht]
          simp [processChunk, hb]

theorem foldl_processChunk_vec (prov : Provider) (path : Str) :
    ∀ (cs : List PyChunk) (s : MemState) (x : Nat × List ℚ),
      x ∈ (cs.foldl (processChunk prov path) s).vec →
      x ∈ s.vec ∨ s.nextId ≤ x.1 := by
  intro cs
  induction cs with
  | nil => intro s x hx; exact Or.inl hx
  | cons ch cs ih =>
      intro s x hx
      rw [List.foldl_cons] at hx
      rcases ih (processChunk prov path s ch) x hx with hmem | hle
      · cases hb : (pyStrip ch.content).isEmpty with
        | true =>
            simp only [processChunk, hb] at hmem
            exact Or.inl hmem
        | false =>
            simp only [processChunk, hb] at hmem
            simp only [Bool.false_eq_true, if_false, List.mem_append,
              List.mem_singleton] at hmem
            rcases hmem with h | h
            · exact Or.inl h
            · exact Or.inr (by rw [h])
      · cases hb : (pyStrip ch.content).isEmpty with
        | true =>
            simp only [processChunk, hb] at hle
            exact Or.inr hle
        | false =>
            simp only [processChunk, hb] at hle
            simp only [Bool.false_eq_true, if_false] at hle
            exact Or.inr (le_trans (Nat.le_succ s.nextId) hle)

theorem processChunk_wf (prov : Provider) (path : Str) (s : MemState)
    (ch : PyChunk) (hwf : MemWF s) : MemWF (processChunk prov path s ch) := by
  cases hb : (pyStrip ch.content).isEmpty with
  | true => simpa [processChunk, hb] using hwf
  | false =>
      obtain ⟨h1, h2⟩ := hwf
      constructor
      · intro r hr
        simp only [processChunk, hb, Bool.false_eq_true, if_false,
          List.mem_append, List.mem_singleton] at hr ⊢
        rcases hr with h | h
        · exact lt_trans (h1 r h) (Nat.lt_succ_self _)
        · rw [h]; exact Nat.lt_succ_self _
      · intro p hp
        simp only [processChunk, hb, Bool.false_eq_true, if_false,
          List.mem_append, List.mem_singleton] at hp ⊢
        rcases hp with h | h
        · exact lt_trans (h2 p h) (Nat.lt_succ_self _)
        · rw [h]; exact Nat.lt_succ_self _

theorem foldl_processChunk_wf (prov : Provider) (path : Str) :
    ∀ (cs : List PyChunk) (s : MemState), MemWF s →
      MemWF (cs.foldl (processChunk prov path) s) := by
  intro cs
  induction cs with
  | nil => intro s h; exact h
  | cons ch cs ih =>
      intro s h
      rw [List.foldl_cons]
      exact ih _ (processChunk_wf prov path s ch h)

/-- The state after the delete step of `process_file`. -/
def deleteStep (st : MemState) (path : Str) : MemState :=
  let oldIds := (st.chunks.filter (fun r => r.file_path = path)).map (·.id)
  if oldIds.isEmpty then st
  else
    { st with
      vec := st.vec.filter (fun p => ¬ p.1 ∈ oldIds),
      chunks := st.chunks.filter (fun r => ¬ r.file_path = path) }

theorem processFile_eq_fold (prov : Provider) (st : MemState)
    (path content : Str) :
    processFile prov st path content =
      (splitTextSlidingWindow content).foldl (processChunk prov path)
        (deleteStep st path) := by
  rfl

theorem filter_not_filter_nil (path : Str) :
    ∀ (l : List CRow),
      (l.filter (fun r => ¬ r.file_path = path)).filter
        (fun r => r.file_path = path) = [] := by
  intro l
  induction l with
  | nil => rfl
  | cons r l ih =>
      by_cases h : r.file_path = path
      · simp [List.filter_cons, h, ih]
      · simp [List.filter_cons, h, ih]

theorem deleteStep_no_path_rows (st : MemState) (path : Str) :
    (deleteStep st path).chunks.filter (fun r => r.file_path = path) = [] := by
  rw [deleteStep]
  by_cases he :
      ((st.chunks.filter (fun r => r.file_path = path)).map (·.id)).isEmpty
  · rw [if_pos he]
    rcases List.isEmpty_iff.1 he with hmap
    exact List.map_eq_nil_iff.1 hmap
  · rw [if_neg he]
    exact filter_not_filter_nil path st.chunks

theorem deleteStep_wf (st : MemState) (path : Str) (hwf : MemWF st) :
    MemWF (deleteStep st path) := by
  obtain ⟨h1, h2⟩ := hwf
  rw [deleteStep]
  by_cases he :
      ((st.chunks.filter (fun r => r.file_path = path)).map (·.id)).isEmpty
  · rw [if_pos he]; exact ⟨h1, h2⟩
  · rw [if_neg he]
    constructor
    · intro r hr
      exact h1 r (List.mem_of_mem_filter hr)
    · intro p hp
      exact h2 p (List.mem_of_mem_filter hp)

/-- After any `process_file` call, the `chunks` rows of the processed path
are exactly the non-blank chunks of the new content. -/
theorem processFile_chunks_fresh (prov : Provider) (st : MemState)
    (path content : Str) :
    ((processFile prov st path content).chunks.filter
      (fun r => r.file_path = path)).map (fun r => r.content) =
    nonemptyChunkContents content := by
  rw [processFile_eq_fold, foldl_processChunk_chunks,
    deleteStep_no_path_rows, nonemptyChunkContents]
  simp

theorem processFile_wf (prov : Provider) (st : MemState)
    (path content : Str) (hwf : MemWF st) :
    MemWF (processFile prov st path content) := by
  rw [processFile_eq_fold]
  exact foldl_processChunk_wf prov path _ _ (deleteStep_wf st path hwf)

/-- Lemma: `process_file` only ever appends to the FTS table. -/
theorem processFile_fts_grows (prov : Provider) (st : MemState)
    (path content : Str) :
    ∃ t, (processFile prov st path content).fts = st.fts ++ t := by
  rw [processFile_eq_fold]
  have hfts : (deleteStep st path).fts = st.fts := by
    rw [deleteStep]
    by_cases he :
        ((st.chunks.filter (fun r => r.file_path = path)).map (·.id)).isEmpty
    · rw [if_pos he]
    · rw [if_neg he]
  obtain ⟨t, ht⟩ := foldl_processChunk_fts prov path
    (splitTextSlidingWindow content) (deleteStep st path)
  exact ⟨t, by rw [ht, hfts]⟩

/-- Lemma: `process_file` deletes every vector row keyed by one of the path's old
rowids, and (by AUTOINCREMENT) never reuses such a rowid for a new row. -/
theorem processFile_purges_vec (prov : Provider) (st : MemState)
    (path content : Str) (hwf : MemWF st) :
    ∀ i ∈ (st.chunks.filter (fun r => r.file_path = path)).map
      (fun r => r.id), ∀ b,
      ¬ (i, b) ∈ (processFile prov st path content).vec := by
  intro i hi b hmem
  rw [processFile_eq_fold] at hmem
  have hne : ¬ ((st.chunks.filter (fun r => r.file_path = path)).map
      (·.id)).isEmpty = true := by
    intro he
    rw [List.isEmpty_iff] at he
    rw [show ((st.chunks.filter (fun r => r.file_path = path)).map
      (·.id)) = ((st.chunks.filter (fun r => r.file_path = path)).map
      (fun r => r.id)) from rfl, he] at hi
    cases hi
  have hdel : deleteStep st path =
      { st with
        vec := st.vec.filter (fun p => ¬ p.1 ∈
          ((st.chunks.filter (fun r => r.file_path = path)).map (·.id))),
        chunks := st.chunks.filter (fun r => ¬ r.file_path = path) } := by
    rw [deleteStep, if_neg hne]
  rcases foldl_processChunk_vec prov path (splitTextSlidingWindow content)
      (deleteStep st path) (i, b) hmem with hv | hv
  · rw [hdel] at hv
    have := List.of_mem_filter hv
    simp only [decide_not, Bool.not_eq_true', decide_eq_false_iff_not] at this
    exact this hi
  · rw [hdel] at hv
    obtain ⟨r, hr, hri⟩ := List.mem_map.1 hi
    have hrmem : r ∈ st.chunks := List.mem_of_mem_filter hr
    have hlt : r.id < st.nextId := hwf.1 r hrmem
    simp only at hv
    omega

/-! ## Claim C1 -/

/-- C1, counterexample.  After indexing `"# d\n## A\na"` and then
`"# d\n## B\nb"` at the same path, the FTS table still holds the row with
the first content's chunk text — the source deliberately skips FTS deletion
— even though that text is not a chunk of the second content.  So a row
derived from the first content survives in the lexical store. -/
theorem processFile_stale_fts_counterexample :
    (1, s2l ("# d\n\n## A\na")) ∈
      (processFile failingProvider
        (processFile failingProvider emptyMemState (s2l ("m.md"))
          (s2l ("# d\n## A\na")))
        (s2l ("m.md")) (s2l ("# d\n## B\nb"))).fts ∧
    ¬ s2l ("# d\n\n## A\na") ∈ nonemptyChunkContents (s2l ("# d\n## B\nb")) := by
  decide

/-- C1, amended: after two successive `process_file` calls on the same path,
the chunk metadata visible for that path is exactly the non-blank chunk set
of the second content, and none of the first call's rowids for that path
survives in the vector store; but the FTS lexical store only ever grows —
every FTS row written for the first content survives the second call. -/
theorem processFile_reindex (prov : Provider) (st : MemState)
    (path c1 c2 : Str) (hwf : MemWF st) :
    (((processFile prov (processFile prov st path c1) path c2).chunks.filter
        (fun r => r.file_path = path)).map (fun r => r.content) =
      nonemptyChunkContents c2) ∧
    (∀ i ∈ (((processFile prov st path c1).chunks.filter
        (fun r => r.file_path = path)).map (fun r => r.id)), ∀ b,
      ¬ (i, b) ∈ (processFile prov (processFile prov st path c1) path
        c2).vec) ∧
    (∃ t, (processFile prov (processFile prov st path c1) path c2).fts =
      (processFile prov st path c1).fts ++ t) := by
  refine ⟨processFile_chunks_fresh prov _ path c2, ?_,
    processFile_fts_grows prov _ path c2⟩
  exact processFile_purges_vec prov _ path c2
    (processFile_wf prov st path c1 hwf)

/-- C1, witness: the amended theorem at the concrete reindex scenario of the
counterexample — after the second call the path's metadata rows are exactly
the second content's chunk set. -/
theorem processFile_reindex_witness :
    ((processFile failingProvider
        (processFile failingProvider emptyMemState (s2l ("m.md"))
          (s2l ("# d\n## A\na")))
        (s2l ("m.md")) (s2l ("# d\n## B\nb"))).chunks.filter
      (fun r => r.file_path = s2l ("m.md"))).map (fun r => r.content) =
    nonemptyChunkContents (s2l ("# d\n## B\nb")) :=
  (processFile_reindex failingProvider emptyMemState (s2l ("m.md"))
    (s2l ("# d\n## A\na")) (s2l ("# d\n## B\nb"))
    ⟨fun r hr => absurd hr (List.not_mem_nil r),
     fun p hp => absurd hp (List.not_mem_nil p)⟩).1

/-! ## Facts about the Python `strip` model -/

theorem trimL_eq_of_length (l : Str) (h : (trimL l).length = l.length) :
    trimL l = l :=
  List.Sublist.eq_of_length (List.dropWhile_sublist isSp) h

theorem trimR_sublist (l : Str) : List.Sublist (trimR l) l := by
  have h0 : List.Sublist (List.dropWhile isSp l.reverse) l.reverse :=
    List.dropWhile_sublist isSp
  have h := h0.reverse
  rwa [List.reverse_reverse] at h

theorem trimL_length_le (l : Str) : (trimL l).length ≤ l.length :=
  (List.dropWhile_sublist isSp).length_le

theorem trimR_length_le (l : Str) : (trimR l).length ≤ l.length :=
  (trimR_sublist l).length_le

theorem pyStrip_parts (l : Str) (h : pyStrip l = l) :
    trimL l = l ∧ trimR l = l := by
  have hlen : (pyStrip l).length = l.length := by rw [h]
  have h1 : (trimL l).length = l.length := by
    have ha : (pyStrip l).length ≤ (trimL l).length := trimR_length_le _
    have hb : (trimL l).length ≤ l.length := trimL_length_le l
    omega
  have h2 : trimL l = l := trimL_eq_of_length l h1
  refine ⟨h2, ?_⟩
  have : pyStrip l = trimR l := by rw [pyStrip, h2]
  rw [← this, h]

theorem head_not_sp (c : Char) (t : Str) (h : trimL (c :: t) = c :: t) :
    isSp c = false := by
  cases hsp : isSp c with
  | false => rfl
  | true =>
      exfalso
      rw [trimL, List.dropWhile_cons_of_pos hsp] at h
      have := congrArg List.length h
      have hle : (List.dropWhile isSp t).length ≤ t.length :=
        (List.dropWhile_sublist isSp).length_le
      simp at this
      omega

theorem trimL_append (l m : Str) (hl : trimL l = l) (hne : ¬ l = []) :
    trimL (l ++ m) = l ++ m := by
  cases l with
  | nil => exact absurd rfl hne
  | cons c t =>
      have hc : isSp c = false := head_not_sp c t hl
      rw [List.cons_append, trimL,
        List.dropWhile_cons_of_neg (by simp [hc])]

theorem trimR_reverse_fixed (l : Str) (hl : trimR l = l) :
    List.dropWhile isSp l.reverse = l.reverse := by
  have h := congrArg List.reverse hl
  rw [trimR, List.reverse_reverse] at h
  exact h

theorem trimR_append_ex (l m : Str) (hl : trimR l = l) :
    ∃ t, trimR (l ++ m) = l ++ t := by
  have hrl := trimR_reverse_fixed l hl
  rw [trimR, List.reverse_append, List.dropWhile_append]
  by_cases he : (List.dropWhile isSp m.reverse).isEmpty
  · refine ⟨[], ?_⟩
    rw [if_pos he, hrl, List.reverse_reverse, List.append_nil]
  · refine ⟨(List.dropWhile isSp m.reverse).reverse, ?_⟩
    rw [if_neg he, List.reverse_append, List.reverse_reverse]

theorem pyStrip_append_ex (l m : Str) (hl : pyStrip l = l) (hne : ¬ l = []) :
    ∃ t, pyStrip (l ++ m) = l ++ t := by
  obtain ⟨h1, h2⟩ := pyStrip_parts l hl
  rw [pyStrip, trimL_append l m h1 hne]
  exact trimR_append_ex l m h2

theorem dropWhile_head_false :
    ∀ (l : Str) (c : Char) (t : Str), List.dropWhile isSp l = c :: t →
      isSp c = false := by
  intro l
  induction l with
  | nil => intro c t h; cases h
  | cons a l' ih =>
      intro c t h
      cases hsp : isSp a with
      | true =>
          rw [List.dropWhile_cons_of_pos hsp] at h
          exact ih c t h
      | false =>
          rw [List.dropWhile_cons_of_neg (by simp [hsp])] at h
          cases h
          exact hsp

theorem dropWhile_isSp_idem (l : Str) :
    List.dropWhile isSp (List.dropWhile isSp l) = List.dropWhile isSp l := by
  cases h : List.dropWhile isSp l with
  | nil => rfl
  | cons c t =>
      have hc : isSp c = false := dropWhile_head_false l c t h
      rw [List.dropWhile_cons_of_neg (by simp [hc])]

theorem trimL_idem (l : Str) : trimL (trimL l) = trimL l :=
  dropWhile_isSp_idem l

theorem trimR_idem (l : Str) : trimR (trimR l) = trimR l := by
  rw [trimR, trimR, List.reverse_reverse, dropWhile_isSp_idem]

theorem trimL_of_trimR (y : Str) (hy : trimL y = y) :
    trimL (trimR y) = trimR y := by
  have hsfx : List.IsSuffix (List.dropWhile isSp y.reverse) y.reverse :=
    List.dropWhile_suffix isSp
  obtain ⟨pre, hpre⟩ := hsfx
  have hdecomp : y = trimR y ++ pre.reverse := by
    have h := congrArg List.reverse hpre
    rw [List.reverse_append, List.reverse_reverse] at h
    exact h.symm
  cases hr : trimR y with
  | nil => rfl
  | cons c t =>
      rw [hr] at hdecomp
      have hc : isSp c = false := by
        refine head_not_sp c (t ++ pre.reverse) ?_
        rw [← List.cons_append, ← hdecomp]
        exact hy
      rw [trimL, List.dropWhile_cons_of_neg (by simp [hc])]

theorem pyStrip_idem (l : Str) : pyStrip (pyStrip l) = pyStrip l := by
  have h1 : trimL (pyStrip l) = pyStrip l := by
    rw [pyStrip]
    exact trimL_of_trimR (trimL l) (trimL_idem l)
  rw [pyStrip, h1]
  show trimR (trimR (trimL l)) = trimR (trimL l)
  exact trimR_idem (trimL l)

/-- Every assembled block starts with the (stripped, non-empty) header
context. -/
theorem mkBlock_context_ex (hc : Str) (cur : List Str)
    (hstrip : pyStrip hc = hc) (hne : ¬ hc = []) :
    ∃ t, mkBlock hc cur = hc ++ t :=
  pyStrip_append_ex hc ('\n' :: '\n' :: joinLines cur) hstrip hne

/-! ## Chunk contents are assembled blocks -/

theorem memLoop_content_shape (hc : Str) (total : Nat) :
    ∀ (rest : List Str) (i : Nat) (cur : List Str) (curStart : Nat)
      (c : PyChunk), c ∈ memLoop hc total rest i cur curStart →
      ∃ ls, c.content = mkBlock hc ls := by
  intro rest
  induction rest with
  | nil =>
      intro i cur curStart c hmem
      rw [memLoop] at hmem
      by_cases hcur : cur.isEmpty
      · rw [if_pos hcur] at hmem; cases hmem
      · rw [if_neg hcur] at hmem
        rcases List.mem_cons.1 hmem with rfl | h
        · exact ⟨cur, rfl⟩
        · cases h
  | cons l rest ih =>
      intro i cur curStart c hmem
      rw [memLoop] at hmem
      by_cases hhdr : (isHeaderLine l && !cur.isEmpty) = true
      · rw [if_pos hhdr] at hmem
        rcases List.mem_cons.1 hmem with rfl | h
        · exact ⟨cur, rfl⟩
        · exact ih (i + 1) [l] (i + 1) c h
      · rw [if_neg hhdr] at hmem
        exact ih (i + 1) (cur ++ [l]) curStart c hmem

theorem milvLoop_content_shape (sp date hc : Str) (total : Nat) :
    ∀ (rest : List Str) (i : Nat) (cur : List Str) (curStart : Nat)
      (mc : MemoryChunk), mc ∈ milvLoop sp date hc total rest i cur curStart →
      ∃ ls, mc.content = mkBlock hc ls := by
  intro rest
  induction rest with
  | nil =>
      intro i cur curStart mc hmem
      rw [milvLoop] at hmem
      by_cases hcur : cur.isEmpty
      · rw [if_pos hcur] at hmem; cases hmem
      · rw [if_neg hcur] at hmem
        by_cases hblk : (mkBlock hc cur).isEmpty
        · rw [if_pos hblk] at hmem; cases hmem
        · rw [if_neg hblk] at hmem
          rcases List.mem_cons.1 hmem with rfl | h
          · exact ⟨cur, rfl⟩
          · cases h
  | cons l rest ih =>
      intro i cur curStart mc hmem
      rw [milvLoop] at hmem
      by_cases hhdr : (isHeaderLine l && !cur.isEmpty) = true
      · rw [if_pos hhdr] at hmem
        by_cases hblk : (mkBlock hc cur).isEmpty
        · rw [if_pos hblk] at hmem
          exact ih (i + 1) [l] (i + 1) mc hmem
        · rw [if_neg hblk] at hmem
          rcases List.mem_cons.1 hmem with rfl | h
          · exact ⟨cur, rfl⟩
          · exact ih (i + 1) [l] (i + 1) mc h
      · rw [if_neg hhdr] at hmem
        exact ih (i + 1) (cur ++ [l]) curStart mc hmem

theorem splitLines_ne_nil (t : Str) : ¬ splitLines t = [] := by
  cases t with
  | nil => simp [splitLines]
  | cons c rest =>
      simp only [splitLines]
      split
      · simp
      · split <;> simp

/-! ## Claim C9 -/

/-- C9: for a file with a non-empty header context and at least one
header-marked line, every chunk produced by either chunker
(`_split_text_sliding_window` and `_split_daily_markdown`) has content that
starts with the header context. -/
theorem chunk_context_preservation (text filePath : Str)
    (c : PyChunk) (mc : MemoryChunk)
    (hfind : (findHeaderIdx (splitLines text)).isSome = true)
    (hctx : ¬ headerCtx text = []) :
    (c ∈ splitTextSlidingWindow text →
      ∃ t, c.content = headerCtx text ++ t) ∧
    (mc ∈ splitDailyMarkdown filePath text →
      ∃ t, mc.content = headerCtx text ++ t) := by
  obtain ⟨i, hi⟩ := Option.isSome_iff_exists.1 hfind
  have hhc : headerCtx text =
      pyStrip (joinLines ((splitLines text).take i)) := by
    simp only [headerCtx, hi]
  have hstrip : pyStrip (headerCtx text) = headerCtx text := by
    rw [hhc]
    exact pyStrip_idem _
  have htot : ¬ (splitLines text).length = 0 := by
    simpa [List.length_eq_zero] using splitLines_ne_nil text
  constructor
  · intro hmem
    have hsplit : splitTextSlidingWindow text =
        memLoop (pyStrip (joinLines ((splitLines text).take i)))
          (splitLines text).length ((splitLines text).drop i) i []
          (i + 1) := by
      simp only [splitTextSlidingWindow, hi]
      rw [if_neg htot]
    rw [hsplit, ← hhc] at hmem
    obtain ⟨ls, hls⟩ := memLoop_content_shape (headerCtx text)
      (splitLines text).length _ i [] (i + 1) c hmem
    obtain ⟨t, ht⟩ := mkBlock_context_ex (headerCtx text) ls hstrip hctx
    exact ⟨t, hls.trans ht⟩
  · intro hmem
    have hsplit : splitDailyMarkdown filePath text =
        milvLoop filePath (pathStem filePath)
          (pyStrip (joinLines ((splitLines text).take i)))
          (splitLines text).length ((splitLines text).drop i) i []
          (i + 1) := by
      simp only [splitDailyMarkdown, hi]
      rw [if_neg htot]
    rw [hsplit, ← hhc] at hmem
    obtain ⟨ls, hls⟩ := milvLoop_content_shape filePath (pathStem filePath)
      (headerCtx text) (splitLines text).length _ i [] (i + 1) mc hmem
    obtain ⟨t, ht⟩ := mkBlock_context_ex (headerCtx text) ls hstrip hctx
    exact ⟨t, hls.trans ht⟩

/-- C9, witness: in a concrete two-block file with header context
`"# 2026-02-12"`, the first chunk of each chunker starts with the header
context. -/
theorem chunk_context_preservation_witness :
    (∃ t, (s2l ("# 2026-02-12\n\n## 09:00 - init\ndid")) =
      headerCtx (s2l ("# 2026-02-12\n## 09:00 - init\ndid\n## 10:30 - call\nmore")) ++ t) ∧
    (∃ t, (s2l ("# 2026-02-12\n\n## 10:30 - call\nmore")) =
      headerCtx (s2l ("# 2026-02-12\n## 09:00 - init\ndid\n## 10:30 - call\nmore")) ++ t) := by
  have h := chunk_context_preservation
    (s2l ("# 2026-02-12\n## 09:00 - init\ndid\n## 10:30 - call\nmore"))
    (s2l ("daily/2026-02-12.md"))
    { content := s2l ("# 2026-02-12\n\n## 09:00 - init\ndid"),
      start := 2, stop := 3 }
    { source_path := s2l ("daily/2026-02-12.md"),
      date := s2l ("2026-02-12"), start_line := 4, end_line := 5,
      content := s2l ("# 2026-02-12\n\n## 10:30 - call\nmore") }
    (by decide) (by decide)
  exact ⟨h.1 (by decide), h.2 (by decide)⟩

